import Mathlib

/-!
Verification of the daily market-data update pipeline (`src/main.py`).

The table persisted in `db/db.parquet` has one row per calendar date with
three crypto columns (`price`, `total_volume`, `market_cap`) and five
traditional-instrument columns (`price_gold`, `stock_index_dowjones`,
`stock_index_sp500`, `rate_US10Y`, `stock_index_ni225`).  We embed a
DataFrame as a `List Row`; dates are day ordinals (`Nat`, day 0 =
1970-01-01, a Thursday) and numeric cells are `Option Int` (`none` = null).

`paso_final_actualizar` is `df.sort('date').unique(subset=['date'],
keep='last').fill_null(strategy='forward')`; we model the sort as a stable
sort by date, `unique(keep='last')` as keeping the last occurrence of each
date in row order, and the forward fill as an independent per-column scan
carrying the most recent non-null value.
-/

/-- The eight value columns of one observation row (each may be null). -/
structure Cells where
  price : Option Int
  total_volume : Option Int
  market_cap : Option Int
  price_gold : Option Int
  stock_index_dowjones : Option Int
  stock_index_sp500 : Option Int
  rate_US10Y : Option Int
  stock_index_ni225 : Option Int
deriving DecidableEq, Repr

/-- One row of the table: a date plus the eight value cells. -/
structure Row where
  date : Nat
  cells : Cells
deriving DecidableEq, Repr

/-- Column access by index, in the schema order of the source. -/
def Cells.get (c : Cells) (i : Fin 8) : Option Int :=
  match i with
  | ⟨0, _⟩ => c.price
  | ⟨1, _⟩ => c.total_volume
  | ⟨2, _⟩ => c.market_cap
  | ⟨3, _⟩ => c.price_gold
  | ⟨4, _⟩ => c.stock_index_dowjones
  | ⟨5, _⟩ => c.stock_index_sp500
  | ⟨6, _⟩ => c.rate_US10Y
  | ⟨7, _⟩ => c.stock_index_ni225

/-- A row of all-null cells. -/
def noneCells : Cells := ⟨none, none, none, none, none, none, none, none⟩

/-- True when every one of the eight cells is non-null. -/
def Cells.allSome (c : Cells) : Bool :=
  c.price.isSome && c.total_volume.isSome && c.market_cap.isSome &&
  c.price_gold.isSome && c.stock_index_dowjones.isSome &&
  c.stock_index_sp500.isSome && c.rate_US10Y.isSome &&
  c.stock_index_ni225.isSome

/-- One forward-fill step on a single cell: a non-null current value is
kept, a null is replaced by the carried previous value. -/
def stepCell (prev cur : Option Int) : Option Int :=
  match cur with
  | some v => some v
  | none => prev

/-- One forward-fill step on a whole row of cells, column by column. -/
def stepCells (prev cur : Cells) : Cells :=
  ⟨stepCell prev.price cur.price,
   stepCell prev.total_volume cur.total_volume,
   stepCell prev.market_cap cur.market_cap,
   stepCell prev.price_gold cur.price_gold,
   stepCell prev.stock_index_dowjones cur.stock_index_dowjones,
   stepCell prev.stock_index_sp500 cur.stock_index_sp500,
   stepCell prev.rate_US10Y cur.rate_US10Y,
   stepCell prev.stock_index_ni225 cur.stock_index_ni225⟩

/-- Stable insertion of a row into a (sorted) list: the new row goes in
front of the first row whose date is not smaller. -/
def insertRow (r : Row) : List Row → List Row
  | [] => [r]
  | x :: xs => if r.date ≤ x.date then r :: x :: xs else x :: insertRow r xs

/-- `df.sort('date')`: stable insertion sort ascending by date. -/
def sortByDate : List Row → List Row
  | [] => []
  | x :: xs => insertRow x (sortByDate xs)

/-- Insertion of a row AFTER every row whose date is not larger (the
position a stable sort gives to a row appended at the end). -/
def insertLast (r : Row) : List Row → List Row
  | [] => [r]
  | x :: xs => if x.date ≤ r.date then x :: insertLast r xs else r :: x :: xs

/-- `df.unique(subset=['date'], keep='last')`: a row is kept exactly when
no later row carries the same date, so the last occurrence of each date
survives, in row order. -/
def dedupKeepLast : List Row → List Row
  | [] => []
  | x :: xs =>
    if xs.any (fun y => y.date == x.date) then dedupKeepLast xs
    else x :: dedupKeepLast xs

/-- Forward fill scanning down the rows, carrying in `prev` the most
recent non-null value of every column seen so far. -/
def ffillGo (prev : Cells) : List Row → List Row
  | [] => []
  | x :: xs =>
    let c := stepCells prev x.cells
    ⟨x.date, c⟩ :: ffillGo c xs

/-- `df.fill_null(strategy='forward')`: forward fill starting with no
previous value in any column, so leading nulls stay null. -/
def fill_null_forward (l : List Row) : List Row := ffillGo noneCells l

/-- `paso_final_actualizar` (src/main.py lines 18-26): sort ascending by
date, deduplicate on date keeping the last occurrence, forward fill. -/
def paso_final_actualizar (df : List Row) : List Row :=
  fill_null_forward (dedupKeepLast (sortByDate df))

/-- `concatenar` (src/main.py lines 117-124): vertical concatenation of
the existing table and today's rows. -/
def concatenar (df_existente df_hoy : List Row) : List Row :=
  df_existente ++ df_hoy

/-- The reconcile step of the spec: append the new row to the historical
table, then sort + dedup-keep-last + forward-fill. -/
def reconcile (T : List Row) (r : Row) : List Row :=
  paso_final_actualizar (concatenar T [r])

/-- The carried forward-fill state after scanning a list of rows. -/
def stateAfter (prev : Cells) (l : List Row) : Cells :=
  l.foldl (fun s r => stepCells s r.cells) prev

/-- The last non-null value of a column segment (`none` when the whole
segment is null): the spec's "nearest preceding non-null value" for the
rows that follow the segment. -/
def lastSome : List (Option Int) → Option Int
  | [] => none
  | x :: xs =>
    match lastSome xs with
    | some v => some v
    | none => x

/-!
Row building (`retorna_data_instrumentos`, src/main.py lines 55-89).

The current date is a day ordinal in the reference timezone; Python's
`date.weekday()` (Monday = 0 … Sunday = 6) is `(d + 3) % 7` because day 0
(1970-01-01) was a Thursday.  The instrument source `yf.download` is an
oracle `fetch : String → Option Int` mapping a ticker symbol to the day's
opening observation, `none` for an empty response.  Besides the five
resulting fields we record the list of symbols actually queried.
-/

/-- Python's `date.weekday()` for a day ordinal (day 0 = Thursday = 3). -/
def pythonWeekday (d : Nat) : Nat := (d + 3) % 7

/-- The five traditional-instrument fields of `retorna_data_instrumentos`. -/
structure InstrData where
  price_gold : Option Int
  stock_index_dowjones : Option Int
  stock_index_sp500 : Option Int
  rate_US10Y : Option Int
  stock_index_ni225 : Option Int
deriving DecidableEq, Repr

/-- `retorna_data_instrumentos` (src/main.py lines 55-89): on Saturday
(weekday 5) or Sunday (weekday 6) return all five fields null and query
nothing; on a business day query each ticker independently, a `none`
(empty) response yielding null for that field only.  The second component
is the list of tickers queried. -/
def retorna_data_instrumentos (today : Nat) (fetch : String → Option Int) :
    InstrData × List String :=
  if pythonWeekday today = 5 ∨ pythonWeekday today = 6 then
    (⟨none, none, none, none, none⟩, [])
  else
    (⟨fetch "GC=F", fetch "^DJI", fetch "^GSPC", fetch "^TNX", fetch "^N225"⟩,
     ["GC=F", "^DJI", "^GSPC", "^TNX", "^N225"])

/-!
The retry pipeline (`pipeline_principal`, src/main.py lines 149-165).

One attempt runs load → fetch → merge → persist; any stage failure raises
and aborts the attempt.  The outcome of the external stages of one attempt
is an `AttemptEnv`: whether `cargar_data_existente` succeeds, what
`obtener_data_hoy` produces (`none` = a raised fetch error), and whether
`persistir`'s write succeeds.  The store (the parquet file's table) is
threaded through; we also record every table `persistir` is invoked on.
-/

/-- The external outcomes of the stages of one pipeline attempt. -/
structure AttemptEnv where
  loadOk : Bool
  fetchResult : Option Row
  persistOk : Bool
deriving DecidableEq, Repr

/-- One attempt of the pipeline body: load the store, fetch today's row,
concatenate and reconcile, persist.  Returns the persisted table on
success (`none` on a raised error) together with the list of tables
`persistir` was invoked on during the attempt. -/
def intento (store : List Row) (e : AttemptEnv) :
    Option (List Row) × List (List Row) :=
  if e.loadOk then
    match e.fetchResult with
    | some r =>
      let t := paso_final_actualizar (concatenar store [r])
      (if e.persistOk then some t else none, [t])
    | none => (none, [])
  else (none, [])

/-- `pipeline_principal` (src/main.py lines 149-165): run the attempt body
for each environment in turn (the source iterates `range(1, 4)`, so three
environments), stopping at the first success.  Returns the final store
content and the list of tables `persistir` was invoked on. -/
def pipeline_principal (envs : List AttemptEnv) (store : List Row) :
    List Row × List (List Row) :=
  match envs with
  | [] => (store, [])
  | e :: rest =>
    match intento store e with
    | (some t, w) => (t, w)
    | (none, w) =>
      let res := pipeline_principal rest store
      (res.1, w ++ res.2)

/-- Claim C5: whenever the current date in the reference timezone falls on
a Saturday or a Sunday, building today's instrument data returns all five
traditional-instrument fields as null and queries no ticker at all. -/
theorem weekend_short_circuit (d : Nat) (fetch : String → Option Int)
    (h : pythonWeekday d = 5 ∨ pythonWeekday d = 6) :
    retorna_data_instrumentos d fetch = (⟨none, none, none, none, none⟩, []) := by
  unfold retorna_data_instrumentos
  rw [if_pos h]

/-- Witness for C5: day 2 (1970-01-03) is a Saturday and the short-circuit
fires on it. -/
theorem weekend_short_circuit_witness :
    (pythonWeekday 2 = 5 ∨ pythonWeekday 2 = 6) ∧
      retorna_data_instrumentos 2 (fun _ => some 1) =
        (⟨none, none, none, none, none⟩, []) :=
  ⟨Or.inl (by decide),
   weekend_short_circuit 2 (fun _ => some 1) (Or.inl (by decide))⟩

/-- Claim C7: on a business day every one of the five instruments is
queried, and each resulting field equals exactly that instrument's fetched
value — so an empty response for one instrument nulls that field only,
while the others are still fetched and the row is still produced. -/
theorem business_day_per_instrument (d : Nat) (fetch : String → Option Int)
    (h : ¬(pythonWeekday d = 5 ∨ pythonWeekday d = 6)) :
    (retorna_data_instrumentos d fetch).2 =
        ["GC=F", "^DJI", "^GSPC", "^TNX", "^N225"] ∧
      (retorna_data_instrumentos d fetch).1.price_gold = fetch "GC=F" ∧
      (retorna_data_instrumentos d fetch).1.stock_index_dowjones = fetch "^DJI" ∧
      (retorna_data_instrumentos d fetch).1.stock_index_sp500 = fetch "^GSPC" ∧
      (retorna_data_instrumentos d fetch).1.rate_US10Y = fetch "^TNX" ∧
      (retorna_data_instrumentos d fetch).1.stock_index_ni225 = fetch "^N225" := by
  unfold retorna_data_instrumentos
  rw [if_neg h]
  exact ⟨rfl, rfl, rfl, rfl, rfl, rfl⟩

/-- Witness for C7: day 0 (a Thursday) with a fetch oracle that returns an
empty response for the Dow Jones only: that field is null, the others
carry their fetched values, and all five tickers are queried. -/
theorem business_day_per_instrument_witness :
    (¬(pythonWeekday 0 = 5 ∨ pythonWeekday 0 = 6)) ∧
      ((retorna_data_instrumentos 0
          (fun s => if s = "^DJI" then none else some 1)).2 =
        ["GC=F", "^DJI", "^GSPC", "^TNX", "^N225"] ∧
      (retorna_data_instrumentos 0
          (fun s => if s = "^DJI" then none else some 1)).1.price_gold =
        (fun s => if s = "^DJI" then none else some 1) "GC=F" ∧
      (retorna_data_instrumentos 0
          (fun s => if s = "^DJI" then none else some 1)).1.stock_index_dowjones =
        (fun s => if s = "^DJI" then none else some 1) "^DJI" ∧
      (retorna_data_instrumentos 0
          (fun s => if s = "^DJI" then none else some 1)).1.stock_index_sp500 =
        (fun s => if s = "^DJI" then none else some 1) "^GSPC" ∧
      (retorna_data_instrumentos 0
          (fun s => if s = "^DJI" then none else some 1)).1.rate_US10Y =
        (fun s => if s = "^DJI" then none else some 1) "^TNX" ∧
      (retorna_data_instrumentos 0
          (fun s => if s = "^DJI" then none else some 1)).1.stock_index_ni225 =
        (fun s => if s = "^DJI" then none else some 1) "^N225") :=
  ⟨by decide,
   business_day_per_instrument 0 (fun s => if s = "^DJI" then none else some 1)
     (by decide)⟩

/-- Claim C6: if the fetch stage fails on every one of the three attempts
of a run, the stored table is unchanged and `persistir` is never invoked,
so nothing is written. -/
theorem retry_exhaustion_preserves_store (e1 e2 e3 : AttemptEnv)
    (store : List Row)
    (h1 : e1.fetchResult = none) (h2 : e2.fetchResult = none)
    (h3 : e3.fetchResult = none) :
    pipeline_principal [e1, e2, e3] store = (store, []) := by
  have body : ∀ e : AttemptEnv, e.fetchResult = none →
      intento store e = (none, []) := by
    intro e he
    unfold intento
    rw [he]
    by_cases hl : e.loadOk = true
    · rw [if_pos hl]
    · rw [if_neg hl]
  simp only [pipeline_principal, body e1 h1, body e2 h2, body e3 h3,
    List.nil_append]

/-- Witness for C6: three concrete attempts whose fetch stage fails leave
a concrete one-row store untouched with no persist call. -/
theorem retry_exhaustion_preserves_store_witness :
    ((⟨true, none, true⟩ : AttemptEnv).fetchResult = none ∧
      (⟨false, none, true⟩ : AttemptEnv).fetchResult = none ∧
      (⟨true, none, false⟩ : AttemptEnv).fetchResult = none) ∧
      pipeline_principal
          [⟨true, none, true⟩, ⟨false, none, true⟩, ⟨true, none, false⟩]
          [⟨0, noneCells⟩] =
        ([⟨0, noneCells⟩], []) :=
  ⟨⟨rfl, rfl, rfl⟩,
   retry_exhaustion_preserves_store _ _ _ [⟨0, noneCells⟩] rfl rfl rfl⟩

/-! Basic facts about the forward-fill scan. -/

theorem stepCell_none (c : Option Int) : stepCell none c = c := by
  cases c <;> rfl

theorem stepCell_isSome (p c : Option Int) (h : c.isSome = true) :
    stepCell p c = c := by
  cases c
  · simp at h
  · rfl

theorem stepCell_idem (p c : Option Int) :
    stepCell p (stepCell p c) = stepCell p c := by
  cases c
  · cases p <;> rfl
  · rfl

theorem stepCells_idem (p c : Cells) :
    stepCells p (stepCells p c) = stepCells p c := by
  cases p
  cases c
  simp [stepCells, stepCell_idem]

theorem stateAfter_nil (σ : Cells) : stateAfter σ [] = σ := rfl

theorem stateAfter_cons (σ : Cells) (x : Row) (xs : List Row) :
    stateAfter σ (x :: xs) = stateAfter (stepCells σ x.cells) xs := rfl

theorem stateAfter_append (σ : Cells) (l₁ l₂ : List Row) :
    stateAfter σ (l₁ ++ l₂) = stateAfter (stateAfter σ l₁) l₂ := by
  simp [stateAfter, List.foldl_append]

theorem ffillGo_append (l₁ : List Row) :
    ∀ (σ : Cells) (l₂ : List Row),
      ffillGo σ (l₁ ++ l₂) = ffillGo σ l₁ ++ ffillGo (stateAfter σ l₁) l₂ := by
  induction l₁ with
  | nil => intro σ l₂; rfl
  | cons x xs ih =>
    intro σ l₂
    simp only [List.cons_append, ffillGo, stateAfter_cons, List.cons.injEq,
      true_and]
    exact ih _ l₂

theorem ffillGo_idem (l : List Row) :
    ∀ σ : Cells, ffillGo σ (ffillGo σ l) = ffillGo σ l := by
  induction l with
  | nil => intro σ; rfl
  | cons x xs ih =>
    intro σ
    simp only [ffillGo, stepCells_idem, List.cons.injEq, true_and]
    exact ih _

theorem stateAfter_ffillGo (l : List Row) :
    ∀ σ : Cells, stateAfter σ (ffillGo σ l) = stateAfter σ l := by
  induction l with
  | nil => intro σ; rfl
  | cons x xs ih =>
    intro σ
    simp only [ffillGo, stateAfter_cons, stepCells_idem]
    exact ih _

theorem ffillGo_dates (l : List Row) :
    ∀ σ : Cells, (ffillGo σ l).map Row.date = l.map Row.date := by
  induction l with
  | nil => intro σ; rfl
  | cons x xs ih =>
    intro σ
    simp only [ffillGo, List.map_cons, List.cons.injEq, true_and]
    exact ih _

theorem ffillGo_length (l : List Row) (σ : Cells) :
    (ffillGo σ l).length = l.length := by
  have := ffillGo_dates l σ
  have h1 := congrArg List.length this
  simpa using h1

/-! Basic facts about the stable sort by date. -/

theorem insertRow_perm (r : Row) (l : List Row) :
    List.Perm (insertRow r l) (r :: l) := by
  induction l with
  | nil => exact List.Perm.refl _
  | cons x xs ih =>
    by_cases h : r.date ≤ x.date
    · simp only [insertRow, if_pos h]
      exact List.Perm.refl _
    · simp only [insertRow, if_neg h]
      exact (ih.cons x).trans (List.Perm.swap r x xs)

theorem sortByDate_perm (l : List Row) : List.Perm (sortByDate l) l := by
  induction l with
  | nil => exact List.Perm.refl _
  | cons x xs ih =>
    exact (insertRow_perm x (sortByDate xs)).trans (ih.cons x)

theorem mem_insertRow {y r : Row} {l : List Row} (h : y ∈ insertRow r l) :
    y = r ∨ y ∈ l := by
  have := (insertRow_perm r l).mem_iff.mp h
  simpa using this

theorem insertRow_pairwise (r : Row) (l : List Row)
    (h : l.Pairwise (fun a b => a.date ≤ b.date)) :
    (insertRow r l).Pairwise (fun a b => a.date ≤ b.date) := by
  induction l with
  | nil => simp [insertRow]
  | cons x xs ih =>
    rw [List.pairwise_cons] at h
    by_cases hc : r.date ≤ x.date
    · simp only [insertRow, if_pos hc]
      rw [List.pairwise_cons]
      constructor
      · intro y hy
        rcases List.mem_cons.mp hy with hy | hy
        · exact hy ▸ hc
        · exact le_trans hc (h.1 y hy)
      · rw [List.pairwise_cons]
        exact h
    · simp only [insertRow, if_neg hc]
      rw [List.pairwise_cons]
      constructor
      · intro y hy
        rcases mem_insertRow hy with hy | hy
        · exact hy ▸ le_of_lt (lt_of_not_le hc)
        · exact h.1 y hy
      · exact ih h.2

theorem sortByDate_pairwise (l : List Row) :
    (sortByDate l).Pairwise (fun a b => a.date ≤ b.date) := by
  induction l with
  | nil => simp [sortByDate]
  | cons x xs ih => exact insertRow_pairwise x (sortByDate xs) ih

theorem insertRow_of_forall_le (r : Row) (l : List Row)
    (h : ∀ x ∈ l, r.date ≤ x.date) : insertRow r l = r :: l := by
  cases l with
  | nil => rfl
  | cons x xs => simp only [insertRow, if_pos (h x (List.mem_cons_self x xs))]

theorem sortByDate_eq_self (l : List Row)
    (h : l.Pairwise (fun a b => a.date ≤ b.date)) : sortByDate l = l := by
  induction l with
  | nil => rfl
  | cons x xs ih =>
    rw [List.pairwise_cons] at h
    simp only [sortByDate]
    rw [ih h.2, insertRow_of_forall_le x xs h.1]

/-! Stability: sorting with the new row appended places it after every
row with the same or an earlier date. -/

theorem insertRow_insertLast (x r : Row) :
    ∀ s : List Row, insertRow x (insertLast r s) = insertLast r (insertRow x s) := by
  intro s
  induction s with
  | nil =>
    by_cases h : x.date ≤ r.date <;> simp [insertRow, insertLast, h]
  | cons y ys ih =>
    by_cases hyr : y.date ≤ r.date
    · by_cases hxy : x.date ≤ y.date
      · have hxr : x.date ≤ r.date := le_trans hxy hyr
        simp [insertRow, insertLast, hyr, hxy, hxr]
      · simp only [insertLast, if_pos hyr, insertRow, if_neg hxy]
        rw [ih]
    · by_cases hxy : x.date ≤ y.date
      · by_cases hxr : x.date ≤ r.date
        · simp [insertRow, insertLast, hyr, hxy, hxr]
        · simp [insertRow, insertLast, hyr, hxy, hxr]
      · have hxr : ¬ x.date ≤ r.date := fun h => hxy (le_trans h (le_of_not_le hyr))
        simp [insertRow, insertLast, hyr, hxy, hxr]

theorem sortByDate_append_singleton (l : List Row) (r : Row) :
    sortByDate (l ++ [r]) = insertLast r (sortByDate l) := by
  induction l with
  | nil => rfl
  | cons x xs ih =>
    simp only [List.cons_append, List.append_eq, sortByDate]
    rw [ih, insertRow_insertLast]

theorem insertLast_append_left (r : Row) (A C : List Row)
    (h : ∀ a ∈ A, a.date ≤ r.date) :
    insertLast r (A ++ C) = A ++ insertLast r C := by
  induction A with
  | nil => rfl
  | cons a as ih =>
    simp only [List.cons_append, insertLast,
      if_pos (h a (List.mem_cons_self a as)), List.cons.injEq, true_and]
    exact ih (fun x hx => h x (List.mem_cons_of_mem a hx))

theorem insertLast_of_forall_gt (r : Row) (B : List Row)
    (h : ∀ b ∈ B, ¬ b.date ≤ r.date) : insertLast r B = r :: B := by
  cases B with
  | nil => rfl
  | cons b bs => simp only [insertLast, if_neg (h b (List.mem_cons_self b bs))]

theorem insertLast_eq_takeWhile (r : Row) :
    ∀ l : List Row,
      insertLast r l =
        l.takeWhile (fun x => decide (x.date ≤ r.date)) ++
          r :: l.dropWhile (fun x => decide (x.date ≤ r.date)) := by
  intro l
  induction l with
  | nil => rfl
  | cons x xs ih =>
    by_cases h : x.date ≤ r.date
    · simp only [insertLast, if_pos h]
      rw [ih]
      simp [List.takeWhile_cons, List.dropWhile_cons, h]
    · simp only [insertLast, if_neg h]
      simp [List.takeWhile_cons, List.dropWhile_cons, h]

theorem dropWhile_date_gt (r : Row) :
    ∀ l : List Row, l.Pairwise (fun a b => a.date ≤ b.date) →
      ∀ b ∈ l.dropWhile (fun x => decide (x.date ≤ r.date)), r.date < b.date := by
  intro l
  induction l with
  | nil => intro _ b hb; simp at hb
  | cons x xs ih =>
    intro hp b hb
    rw [List.pairwise_cons] at hp
    by_cases h : x.date ≤ r.date
    · rw [List.dropWhile_cons, if_pos (by simpa using h)] at hb
      exact ih hp.2 b hb
    · rw [List.dropWhile_cons, if_neg (by simpa using h)] at hb
      rcases List.mem_cons.mp hb with hb | hb
      · exact hb ▸ lt_of_not_le h
      · exact lt_of_lt_of_le (lt_of_not_le h) (hp.1 b hb)

/-! Facts about dedup-keep-last. -/

theorem dedupKeepLast_sublist (l : List Row) :
    (dedupKeepLast l).Sublist l := by
  induction l with
  | nil => exact List.Sublist.refl _
  | cons x xs ih =>
    by_cases h : xs.any (fun y => y.date == x.date) = true
    · simp only [dedupKeepLast, if_pos h]
      exact ih.cons x
    · simp only [dedupKeepLast, if_neg h]
      exact ih.cons₂ x

theorem mem_of_mem_dedupKeepLast {y : Row} {l : List Row}
    (h : y ∈ dedupKeepLast l) : y ∈ l :=
  (dedupKeepLast_sublist l).mem h

theorem dedupKeepLast_nodup_dates (l : List Row) :
    ((dedupKeepLast l).map Row.date).Nodup := by
  induction l with
  | nil => simp [dedupKeepLast]
  | cons x xs ih =>
    by_cases h : xs.any (fun y => y.date == x.date) = true
    · simp only [dedupKeepLast, if_pos h]
      exact ih
    · simp only [dedupKeepLast, if_neg h, List.map_cons, List.nodup_cons]
      refine ⟨?_, ih⟩
      intro hx
      rcases List.mem_map.mp hx with ⟨y, hy, hyx⟩
      exact h (List.any_eq_true.mpr
        ⟨y, mem_of_mem_dedupKeepLast hy, by simp [hyx]⟩)

theorem dedupKeepLast_eq_self (l : List Row)
    (h : (l.map Row.date).Nodup) : dedupKeepLast l = l := by
  induction l with
  | nil => rfl
  | cons x xs ih =>
    rw [List.map_cons, List.nodup_cons] at h
    have hany : ¬ xs.any (fun y => y.date == x.date) = true := by
      intro hc
      rcases List.any_eq_true.mp hc with ⟨y, hy, hyx⟩
      exact h.1 (List.mem_map.mpr ⟨y, hy, by simpa using hyx⟩)
    simp only [dedupKeepLast, if_neg hany]
    rw [ih h.2]

theorem dedupKeepLast_append (l₁ l₂ : List Row) :
    dedupKeepLast (l₁ ++ l₂) =
      (dedupKeepLast l₁).filter
          (fun x => !(l₂.any (fun y => y.date == x.date))) ++
        dedupKeepLast l₂ := by
  induction l₁ with
  | nil => simp [dedupKeepLast]
  | cons x xs ih =>
    simp only [List.cons_append, List.append_eq, dedupKeepLast, List.any_append]
    by_cases h1 : xs.any (fun y => y.date == x.date) = true
    · rw [if_pos (by simp [h1]), if_pos h1, ih]
    · by_cases h2 : l₂.any (fun y => y.date == x.date) = true
      · rw [if_pos (by simp [h1, h2]), if_neg h1, ih, List.filter_cons,
          if_neg (by simp [h2])]
      · rw [if_neg (by simp [h1, h2]), if_neg h1, ih, List.filter_cons,
          if_pos (by simp [h1, h2]), List.cons_append]

theorem mem_dates_dedupKeepLast (l : List Row) (d : Nat) :
    d ∈ (dedupKeepLast l).map Row.date ↔ d ∈ l.map Row.date := by
  induction l with
  | nil => simp [dedupKeepLast]
  | cons x xs ih =>
    by_cases h : xs.any (fun y => y.date == x.date) = true
    · simp only [dedupKeepLast, if_pos h, List.map_cons, List.mem_cons]
      rw [ih]
      constructor
      · exact Or.inr
      · rintro (hd | hd)
        · rcases List.any_eq_true.mp h with ⟨y, hy, hyx⟩
          exact List.mem_map.mpr ⟨y, hy, by
            have : y.date = x.date := by simpa using hyx
            rw [this, hd]⟩
        · exact hd
    · simp only [dedupKeepLast, if_neg h, List.map_cons, List.mem_cons, ih]

/-! Sortedness of the reconciled table. -/

theorem ffillGo_pairwise (σ : Cells) (l : List Row)
    (h : l.Pairwise (fun a b => a.date ≤ b.date)) :
    (ffillGo σ l).Pairwise (fun a b => a.date ≤ b.date) := by
  have h2 : ((ffillGo σ l).map Row.date).Pairwise (· ≤ ·) := by
    rw [ffillGo_dates]
    exact List.pairwise_map.mpr h
  exact List.pairwise_map.mp h2

theorem paso_final_pairwise (df : List Row) :
    (paso_final_actualizar df).Pairwise (fun a b => a.date ≤ b.date) :=
  ffillGo_pairwise _ _
    (List.Pairwise.sublist (dedupKeepLast_sublist _) (sortByDate_pairwise df))

/-! Decomposition of the deduplicated sorted table around the new row:
appending `r` and running sort + dedup yields the rows strictly before
`r.date`, then `r` itself (the appended row wins any date collision), then
the rows strictly after. -/

theorem dedup_sort_append_decomp (T : List Row) (r : Row) :
    ∃ P Q : List Row,
      dedupKeepLast (sortByDate (T ++ [r])) = P ++ r :: Q ∧
      (∀ a ∈ P, a.date < r.date) ∧ (∀ b ∈ Q, r.date < b.date) ∧
      (P.map Row.date).Nodup ∧ (Q.map Row.date).Nodup := by
  have hsort : (sortByDate T).Pairwise (fun a b => a.date ≤ b.date) :=
    sortByDate_pairwise T
  have h1 : sortByDate (T ++ [r]) =
      (sortByDate T).takeWhile (fun x => decide (x.date ≤ r.date)) ++
        r :: (sortByDate T).dropWhile (fun x => decide (x.date ≤ r.date)) := by
    rw [sortByDate_append_singleton, insertLast_eq_takeWhile]
  have hdWgt : ∀ b ∈ (sortByDate T).dropWhile (fun x => decide (x.date ≤ r.date)),
      r.date < b.date := dropWhile_date_gt r (sortByDate T) hsort
  have hdedup2 :
      dedupKeepLast
          (r :: (sortByDate T).dropWhile (fun x => decide (x.date ≤ r.date))) =
        r :: dedupKeepLast
          ((sortByDate T).dropWhile (fun x => decide (x.date ≤ r.date))) := by
    have hany :
        ¬ (((sortByDate T).dropWhile (fun x => decide (x.date ≤ r.date))).any
            (fun y => y.date == r.date)) = true := by
      intro hc
      rcases List.any_eq_true.mp hc with ⟨y, hy, hyx⟩
      have he : y.date = r.date := by simpa using hyx
      exact absurd he (Nat.ne_of_gt (hdWgt y hy))
    simp only [dedupKeepLast, if_neg hany]
  refine ⟨(dedupKeepLast
      ((sortByDate T).takeWhile (fun x => decide (x.date ≤ r.date)))).filter
        (fun x =>
          !((r :: (sortByDate T).dropWhile (fun x => decide (x.date ≤ r.date))).any
            (fun y => y.date == x.date))),
    dedupKeepLast ((sortByDate T).dropWhile (fun x => decide (x.date ≤ r.date))),
    ?_, ?_, ?_, ?_, ?_⟩
  · rw [h1, dedupKeepLast_append, hdedup2]
  · intro a ha
    rw [List.mem_filter] at ha
    have hle : a.date ≤ r.date := by
      have := List.mem_takeWhile_imp (mem_of_mem_dedupKeepLast ha.1)
      simpa using this
    have hne : a.date ≠ r.date := by
      intro he
      have hr :
          ((r :: (sortByDate T).dropWhile (fun x => decide (x.date ≤ r.date))).any
            (fun y => y.date == a.date)) = true :=
        List.any_eq_true.mpr ⟨r, List.mem_cons_self _ _, by simp [he]⟩
      rw [hr] at ha
      simp at ha
    exact lt_of_le_of_ne hle hne
  · intro b hb
    exact hdWgt b (mem_of_mem_dedupKeepLast hb)
  · exact List.Nodup.sublist
      (List.Sublist.map Row.date (List.filter_sublist _))
      (dedupKeepLast_nodup_dates _)
  · exact dedupKeepLast_nodup_dates _

/-- The reconciled table decomposed around the new row: the rows strictly
before `r.date` forward-filled, then `r` with its nulls filled from the
state carried over that prefix, then the rows strictly after. -/
theorem reconcile_decomp (T : List Row) (r : Row) :
    ∃ P Q : List Row,
      dedupKeepLast (sortByDate (T ++ [r])) = P ++ r :: Q ∧
      reconcile T r =
        ffillGo noneCells P ++
          Row.mk r.date (stepCells (stateAfter noneCells P) r.cells) ::
            ffillGo (stepCells (stateAfter noneCells P) r.cells) Q ∧
      (∀ a ∈ P, a.date < r.date) ∧ (∀ b ∈ Q, r.date < b.date) ∧
      (P.map Row.date).Nodup ∧ (Q.map Row.date).Nodup := by
  obtain ⟨P, Q, hD, hP, hQ, hPn, hQn⟩ := dedup_sort_append_decomp T r
  refine ⟨P, Q, hD, ?_, hP, hQ, hPn, hQn⟩
  show paso_final_actualizar (concatenar T [r]) = _
  unfold paso_final_actualizar fill_null_forward concatenar
  rw [hD, ffillGo_append]
  simp only [ffillGo]

/-- Claim C1: reconciliation is idempotent — reconciling an
already-reconciled table with the same row again yields the same table. -/
theorem reconcile_idempotent (T : List Row) (r : Row) :
    reconcile (reconcile T r) r = reconcile T r := by
  obtain ⟨P, Q, hD, hU, hP, hQ, hPn, hQn⟩ := reconcile_decomp T r
  set σ : Cells := stateAfter noneCells P with hσ
  set τ : Cells := stepCells σ r.cells with hτ
  set u : Row := Row.mk r.date τ with hu
  set A : List Row := ffillGo noneCells P with hA
  set B : List Row := ffillGo τ Q with hB
  have hud : u.date = r.date := by rw [hu]
  have hAdates : A.map Row.date = P.map Row.date := by rw [hA, ffillGo_dates]
  have hBdates : B.map Row.date = Q.map Row.date := by rw [hB, ffillGo_dates]
  have hAd : ∀ a ∈ A, a.date < r.date := by
    intro a ha
    have h1 : a.date ∈ P.map Row.date := by
      rw [← hAdates]
      exact List.mem_map_of_mem Row.date ha
    rcases List.mem_map.mp h1 with ⟨x, hx, he⟩
    exact he ▸ hP x hx
  have hBd : ∀ b ∈ B, r.date < b.date := by
    intro b hb
    have h1 : b.date ∈ Q.map Row.date := by
      rw [← hBdates]
      exact List.mem_map_of_mem Row.date hb
    rcases List.mem_map.mp h1 with ⟨x, hx, he⟩
    exact he ▸ hQ x hx
  have hsortedU : (reconcile T r).Pairwise (fun a b => a.date ≤ b.date) :=
    paso_final_pairwise (concatenar T [r])
  have hs2 : sortByDate (reconcile T r ++ [r]) = A ++ u :: r :: B := by
    rw [sortByDate_append_singleton, sortByDate_eq_self _ hsortedU, hU]
    rw [insertLast_append_left r _ _ (fun a ha => le_of_lt (hAd a ha))]
    have h1 : insertLast r (u :: B) = u :: insertLast r B := by
      simp only [insertLast, if_pos (le_of_eq hud)]
    rw [h1, insertLast_of_forall_gt r B (fun b hb => not_le_of_gt (hBd b hb))]
  have hs3 : dedupKeepLast (A ++ u :: r :: B) = A ++ r :: B := by
    rw [dedupKeepLast_append]
    have hfA : dedupKeepLast A = A :=
      dedupKeepLast_eq_self A (by rw [hAdates]; exact hPn)
    rw [hfA]
    have hfilter :
        A.filter (fun x => !((u :: r :: B).any (fun y => y.date == x.date))) = A := by
      rw [List.filter_eq_self]
      intro a ha
      have hne : ∀ y ∈ u :: r :: B, (y.date == a.date) = false := by
        intro y hy
        rw [beq_eq_false_iff_ne]
        rcases List.mem_cons.mp hy with hy | hy
        · rw [hy, hud]
          exact Nat.ne_of_gt (hAd a ha)
        · rcases List.mem_cons.mp hy with hy | hy
          · rw [hy]
            exact Nat.ne_of_gt (hAd a ha)
          · exact Nat.ne_of_gt (lt_trans (hAd a ha) (hBd y hy))
      have hanyf : ((u :: r :: B).any (fun y => y.date == a.date)) = false := by
        rw [List.any_eq_false]
        intro y hy
        rw [hne y hy]
        exact Bool.false_ne_true
      rw [hanyf]
      rfl
    rw [hfilter]
    have h2 : dedupKeepLast (u :: r :: B) = r :: B := by
      have hany1 : ((r :: B).any (fun y => y.date == u.date)) = true :=
        List.any_eq_true.mpr ⟨r, List.mem_cons_self _ _, by rw [hud]; simp⟩
      have hany2 : ¬ (B.any (fun y => y.date == r.date)) = true := by
        intro hc
        rcases List.any_eq_true.mp hc with ⟨y, hy, hyx⟩
        have he : y.date = r.date := by simpa using hyx
        exact absurd he (Nat.ne_of_gt (hBd y hy))
      simp only [dedupKeepLast, if_pos hany1, if_neg hany2]
      rw [dedupKeepLast_eq_self B (by rw [hBdates]; exact hQn)]
    rw [h2]
  have hs4 : fill_null_forward (A ++ r :: B) = A ++ u :: B := by
    unfold fill_null_forward
    rw [ffillGo_append]
    have e1 : ffillGo noneCells A = A := by
      rw [hA]
      exact ffillGo_idem P noneCells
    have e2 : stateAfter noneCells A = σ := by
      rw [hσ, hA]
      exact stateAfter_ffillGo P noneCells
    rw [e1, e2]
    simp only [ffillGo]
    rw [← hτ, ← hu]
    have e3 : ffillGo τ B = B := by
      rw [hB]
      exact ffillGo_idem Q τ
    rw [e3]
  calc reconcile (reconcile T r) r
      = fill_null_forward (dedupKeepLast (sortByDate (reconcile T r ++ [r]))) := rfl
    _ = fill_null_forward (A ++ r :: B) := by rw [hs2, hs3]
    _ = A ++ u :: B := hs4
    _ = reconcile T r := hU.symm

/-! Dedup keeps the newly appended row on a date collision (claim C2). -/

theorem stepCells_allSome (p c : Cells) (h : c.allSome = true) :
    stepCells p c = c := by
  cases c with
  | mk f1 f2 f3 f4 f5 f6 f7 f8 =>
    simp only [Cells.allSome, Bool.and_eq_true] at h
    obtain ⟨⟨⟨⟨⟨⟨⟨h1, h2⟩, h3⟩, h4⟩, h5⟩, h6⟩, h7⟩, h8⟩ := h
    simp [stepCells, stepCell_isSome _ _ h1, stepCell_isSome _ _ h2,
      stepCell_isSome _ _ h3, stepCell_isSome _ _ h4, stepCell_isSome _ _ h5,
      stepCell_isSome _ _ h6, stepCell_isSome _ _ h7, stepCell_isSome _ _ h8]

/-- Claim C2 (amended): for every historical table containing a row for
the new row's date and EVERY new row for that date, the reconciled table
contains exactly one row for that date; that row carries the new row's
value in every column where the new row is non-null (the collision is
always resolved in favour of the appended row), and it equals the new row
literally whenever the new row has no null field.  A null field of the
new row may instead be forward-filled from an earlier date — see the
counterexample to the unamended claim. -/
theorem dedup_keeps_latest (T : List Row) (r : Row)
    (_hT : ∃ t ∈ T, t.date = r.date) :
    ∃ u : Row,
      (reconcile T r).filter (fun x => x.date == r.date) = [u] ∧
      u.date = r.date ∧
      (∀ c : Fin 8, (r.cells.get c).isSome = true →
        u.cells.get c = r.cells.get c) ∧
      (r.cells.allSome = true → u = r) := by
  obtain ⟨P, Q, hD, hU, hP, hQ, hPn, hQn⟩ := reconcile_decomp T r
  refine ⟨Row.mk r.date (stepCells (stateAfter noneCells P) r.cells),
    ?_, rfl, ?_, ?_⟩
  case refine_2 =>
    intro c hc
    show (stepCells (stateAfter noneCells P) r.cells).get c = r.cells.get c
    rcases c with ⟨iv, hi⟩
    interval_cases iv <;> exact stepCell_isSome _ _ hc
  case refine_3 =>
    intro hall
    show Row.mk r.date (stepCells (stateAfter noneCells P) r.cells) = r
    rw [stepCells_allSome _ _ hall]
  rw [hU, List.filter_append, List.filter_cons]
  have hAfilter :
      (ffillGo noneCells P).filter (fun x => x.date == r.date) = [] := by
    rw [List.filter_eq_nil_iff]
    intro a ha
    have h1 : a.date ∈ P.map Row.date := by
      rw [← ffillGo_dates P noneCells]
      exact List.mem_map_of_mem Row.date ha
    rcases List.mem_map.mp h1 with ⟨x, hx, he⟩
    have : a.date ≠ r.date := he ▸ Nat.ne_of_lt (hP x hx)
    simpa using this
  have hBfilter :
      (ffillGo (stepCells (stateAfter noneCells P) r.cells) Q).filter
          (fun x => x.date == r.date) = [] := by
    rw [List.filter_eq_nil_iff]
    intro a ha
    have h1 : a.date ∈ Q.map Row.date := by
      rw [← ffillGo_dates Q (stepCells (stateAfter noneCells P) r.cells)]
      exact List.mem_map_of_mem Row.date ha
    rcases List.mem_map.mp h1 with ⟨x, hx, he⟩
    have : a.date ≠ r.date := he ▸ Nat.ne_of_gt (hQ x hx)
    simpa using this
  rw [hAfilter, hBfilter, if_pos (by simp)]
  rfl

/-- Counterexample to claim C2 as literally stated: with historical rows
for dates 0 (price 5) and 1 (price 7) and a new row for date 1 whose
price is null, the reconciled table's unique row for date 1 is NOT equal
to the new row — its null price has been forward-filled to 5. -/
theorem dedup_keeps_latest_cex :
    ((⟨1, ⟨some 7, none, none, none, none, none, none, none⟩⟩ : Row) ∈
        ([⟨0, ⟨some 5, none, none, none, none, none, none, none⟩⟩,
          ⟨1, ⟨some 7, none, none, none, none, none, none, none⟩⟩] : List Row) ∧
      (⟨1, ⟨some 7, none, none, none, none, none, none, none⟩⟩ : Row).date =
        (⟨1, noneCells⟩ : Row).date) ∧
      (reconcile
          [⟨0, ⟨some 5, none, none, none, none, none, none, none⟩⟩,
           ⟨1, ⟨some 7, none, none, none, none, none, none, none⟩⟩]
          ⟨1, noneCells⟩).filter
          (fun x => x.date == (⟨1, noneCells⟩ : Row).date) ≠
        [⟨1, noneCells⟩] := by decide

/-- Witness for the amended C2: a weekend-style new row for date 1 (price
filled, all five instrument fields null) colliding with an existing date-1
row — the reconciled table has exactly one row for date 1, agreeing with
the new row on its non-null columns. -/
theorem dedup_keeps_latest_witness :
    (∃ t ∈ ([⟨0, ⟨some 5, some 4, none, none, none, none, none, none⟩⟩,
             ⟨1, ⟨some 7, none, none, none, none, none, none, none⟩⟩] : List Row),
        t.date =
          (⟨1, ⟨some 9, none, none, none, none, none, none, none⟩⟩ : Row).date) ∧
      ∃ u : Row,
        (reconcile
            [⟨0, ⟨some 5, some 4, none, none, none, none, none, none⟩⟩,
             ⟨1, ⟨some 7, none, none, none, none, none, none, none⟩⟩]
            ⟨1, ⟨some 9, none, none, none, none, none, none, none⟩⟩).filter
            (fun x => x.date ==
              (⟨1, ⟨some 9, none, none, none, none, none, none,
                none⟩⟩ : Row).date) = [u] ∧
        u.date =
          (⟨1, ⟨some 9, none, none, none, none, none, none, none⟩⟩ : Row).date ∧
        (∀ c : Fin 8,
          ((⟨1, ⟨some 9, none, none, none, none, none, none,
              none⟩⟩ : Row).cells.get c).isSome = true →
            u.cells.get c =
              (⟨1, ⟨some 9, none, none, none, none, none, none,
                none⟩⟩ : Row).cells.get c) ∧
        ((⟨1, ⟨some 9, none, none, none, none, none, none,
            none⟩⟩ : Row).cells.allSome = true →
          u = ⟨1, ⟨some 9, none, none, none, none, none, none, none⟩⟩) :=
  ⟨by decide,
   dedup_keeps_latest
     [⟨0, ⟨some 5, some 4, none, none, none, none, none, none⟩⟩,
      ⟨1, ⟨some 7, none, none, none, none, none, none, none⟩⟩]
     ⟨1, ⟨some 9, none, none, none, none, none, none, none⟩⟩ (by decide)⟩

/-- Claim C4: the table returned by the sort + dedup + forward-fill step
has its dates in non-decreasing order in row order. -/
theorem sort_invariant (df : List Row) :
    ((paso_final_actualizar df).map Row.date).Pairwise (· ≤ ·) :=
  List.pairwise_map.mpr (paso_final_pairwise df)

/-- Claim C9: the reconcile step preserves the set of dates — a date
occurs in the output exactly when it occurs in the input. -/
theorem dates_set_preserved (df : List Row) (d : Nat) :
    d ∈ (paso_final_actualizar df).map Row.date ↔ d ∈ df.map Row.date := by
  show d ∈ (fill_null_forward (dedupKeepLast (sortByDate df))).map Row.date ↔ _
  unfold fill_null_forward
  rw [ffillGo_dates, mem_dates_dedupKeepLast]
  exact ((sortByDate_perm df).map Row.date).mem_iff

/-! Per-column characterisation of the forward fill (claims C3 and C10). -/

theorem stepCells_get (p q : Cells) (i : Fin 8) :
    (stepCells p q).get i = stepCell (p.get i) (q.get i) := by
  rcases i with ⟨iv, hi⟩
  interval_cases iv <;> rfl

theorem noneCells_get (i : Fin 8) : noneCells.get i = none := by
  rcases i with ⟨iv, hi⟩
  interval_cases iv <;> rfl

theorem stateAfter_get (c : Fin 8) (l : List Row) :
    ∀ σ : Cells,
      (stateAfter σ l).get c =
        (l.map (fun x => x.cells.get c)).foldl stepCell (σ.get c) := by
  induction l with
  | nil => intro σ; rfl
  | cons x xs ih =>
    intro σ
    rw [stateAfter_cons, List.map_cons, List.foldl_cons, ← stepCells_get]
    exact ih _

theorem foldl_stepCell (xs : List (Option Int)) :
    ∀ a : Option Int, xs.foldl stepCell a = stepCell a (lastSome xs) := by
  induction xs with
  | nil => intro a; rfl
  | cons x xs ih =>
    intro a
    rw [List.foldl_cons, ih]
    cases hls : lastSome xs with
    | some v => simp only [lastSome, hls]; rfl
    | none => simp only [lastSome, hls]; rfl

theorem ffillGo_getD (d₀ : Row) (l : List Row) :
    ∀ (σ : Cells) (i : Nat), i < l.length →
      (ffillGo σ l).getD i d₀ =
        Row.mk (l.getD i d₀).date
          (stepCells (stateAfter σ (l.take i)) (l.getD i d₀).cells) := by
  induction l with
  | nil => intro σ i h; simp at h
  | cons x xs ih =>
    intro σ i h
    cases i with
    | zero =>
      simp only [ffillGo, List.getD_cons_zero, List.take_zero, stateAfter_nil]
    | succ n =>
      have hn : n < xs.length := by simpa using h
      simp only [ffillGo, List.getD_cons_succ, List.take_succ_cons, stateAfter_cons]
      exact ih _ n hn

theorem paso_getD_cells (T : List Row) (i : Nat) (c : Fin 8) (d₀ : Row)
    (h : i < (dedupKeepLast (sortByDate T)).length) :
    ((paso_final_actualizar T).getD i d₀).cells.get c =
      stepCell
        (lastSome
          (((dedupKeepLast (sortByDate T)).take i).map (fun x => x.cells.get c)))
        (((dedupKeepLast (sortByDate T)).getD i d₀).cells.get c) := by
  show ((fill_null_forward (dedupKeepLast (sortByDate T))).getD i d₀).cells.get c = _
  unfold fill_null_forward
  rw [ffillGo_getD d₀ _ noneCells i h]
  dsimp only
  rw [stepCells_get, stateAfter_get, noneCells_get, foldl_stepCell, stepCell_none]

/-- Claim C3: forward fill works independently per column in date order —
after the reconcile step, the cell of row `i` in column `c` equals the
row's own value when that is non-null, and otherwise the nearest preceding
non-null value of column `c` among the earlier (smaller-date) surviving
rows, remaining null when no earlier row has a non-null value there. -/
theorem forward_fill_per_column (T : List Row) (i : Nat) (c : Fin 8) (d₀ : Row)
    (h : i < (dedupKeepLast (sortByDate T)).length) :
    ((paso_final_actualizar T).getD i d₀).cells.get c =
      stepCell
        (lastSome
          (((dedupKeepLast (sortByDate T)).take i).map (fun x => x.cells.get c)))
        (((dedupKeepLast (sortByDate T)).getD i d₀).cells.get c) :=
  paso_getD_cells T i c d₀ h

/-- Witness for C3: the spec's example column [5, null, null, 8, null]
(over dates 0..4) checked at its last row, whose null is filled from the
nearest preceding non-null value 8. -/
theorem forward_fill_per_column_witness :
    (4 < (dedupKeepLast (sortByDate
        ([⟨0, ⟨some 5, none, none, none, none, none, none, none⟩⟩,
          ⟨1, noneCells⟩, ⟨2, noneCells⟩,
          ⟨3, ⟨some 8, none, none, none, none, none, none, none⟩⟩,
          ⟨4, noneCells⟩] : List Row))).length) ∧
      ((paso_final_actualizar
          [⟨0, ⟨some 5, none, none, none, none, none, none, none⟩⟩,
           ⟨1, noneCells⟩, ⟨2, noneCells⟩,
           ⟨3, ⟨some 8, none, none, none, none, none, none, none⟩⟩,
           ⟨4, noneCells⟩]).getD 4 ⟨0, noneCells⟩).cells.get 0 =
        stepCell
          (lastSome
            (((dedupKeepLast (sortByDate
                ([⟨0, ⟨some 5, none, none, none, none, none, none, none⟩⟩,
                  ⟨1, noneCells⟩, ⟨2, noneCells⟩,
                  ⟨3, ⟨some 8, none, none, none, none, none, none, none⟩⟩,
                  ⟨4, noneCells⟩] : List Row))).take 4).map
              (fun x => x.cells.get 0)))
          (((dedupKeepLast (sortByDate
              ([⟨0, ⟨some 5, none, none, none, none, none, none, none⟩⟩,
                ⟨1, noneCells⟩, ⟨2, noneCells⟩,
                ⟨3, ⟨some 8, none, none, none, none, none, none, none⟩⟩,
                ⟨4, noneCells⟩] : List Row))).getD 4 ⟨0, noneCells⟩).cells.get 0) :=
  ⟨by decide,
   forward_fill_per_column
     [⟨0, ⟨some 5, none, none, none, none, none, none, none⟩⟩,
      ⟨1, noneCells⟩, ⟨2, noneCells⟩,
      ⟨3, ⟨some 8, none, none, none, none, none, none, none⟩⟩,
      ⟨4, noneCells⟩] 4 0 ⟨0, noneCells⟩ (by decide)⟩

/-- Claim C10: the reconcile step never overwrites a surviving non-null
cell — a row that survives deduplication keeps every non-null value it
had, the fill only replaces nulls. -/
theorem ffill_preserves_nonnull (T : List Row) (i : Nat) (c : Fin 8)
    (d₀ : Row) (v : Int)
    (h : i < (dedupKeepLast (sortByDate T)).length)
    (hv : ((dedupKeepLast (sortByDate T)).getD i d₀).cells.get c = some v) :
    ((paso_final_actualizar T).getD i d₀).cells.get c = some v := by
  rw [paso_getD_cells T i c d₀ h, hv]
  rfl

/-- Witness for C10: a concrete surviving non-null price cell keeps its
value 5 through the reconcile step. -/
theorem ffill_preserves_nonnull_witness :
    (0 < (dedupKeepLast (sortByDate
        ([⟨0, ⟨some 5, none, none, none, none, none, none, none⟩⟩,
          ⟨1, noneCells⟩] : List Row))).length ∧
      ((dedupKeepLast (sortByDate
          ([⟨0, ⟨some 5, none, none, none, none, none, none, none⟩⟩,
            ⟨1, noneCells⟩] : List Row))).getD 0 ⟨0, noneCells⟩).cells.get 0 =
        some 5) ∧
      ((paso_final_actualizar
          [⟨0, ⟨some 5, none, none, none, none, none, none, none⟩⟩,
           ⟨1, noneCells⟩]).getD 0 ⟨0, noneCells⟩).cells.get 0 = some 5 :=
  ⟨⟨by decide, by decide⟩,
   ffill_preserves_nonnull
     [⟨0, ⟨some 5, none, none, none, none, none, none, none⟩⟩, ⟨1, noneCells⟩]
     0 0 ⟨0, noneCells⟩ 5 (by decide) (by decide)⟩
